import Mathlib

/-!
Shallow embedding of the learning-scheduler repository.

Conventions:
* Calendar dates are modelled as natural-number day ordinals; the source
  stores ISO strings and converts with `date.fromisoformat` / `isoformat`,
  which is a bijection onto day ordinals, and `timedelta(days = k)` is
  addition of `k`.
* `date.today()` is passed explicitly as a `today` parameter wherever the
  source calls it.
* Python functions that raise are embedded as `Option`-valued functions
  (`none` = exception).
-/

/-! ### learning_scheduler.py — URKCE item scheduler -/

/-- `INTERVALS = {0: 1, 1: 3, 2: 7, 3: 30}` from `learning_scheduler.py`;
a lookup of a key outside the table is a Python `KeyError`, hence `Option`. -/
def INTERVALS : Nat → Option Nat
  | 0 => some 1
  | 1 => some 3
  | 2 => some 7
  | 3 => some 30
  | _ => none

/-- One `{date, status}` entry of a `LearningItem.history` list. -/
structure HistEntry where
  date : Nat
  status : String
deriving Repr, DecidableEq

/-- `LearningItem` dataclass of `learning_scheduler.py` (fields that the
claims touch; `content`/`summary`/`id` carried for fidelity). -/
structure LearningItem where
  content : String := ""
  summary : String := ""
  id : String := ""
  initial_date : Nat := 0
  last_review_date : Nat := 0
  next_review_date : Nat := 0
  memory_count : Nat := 0
  status : String := "X"
  history : List HistEntry := []
  tags : List String := []
deriving Repr, DecidableEq

/-- Python `str.upper()` restricted to the characters that can reach the
scheduler's status argument: ASCII letters are upper-cased and the Greek
lower-case delta maps to `Δ`; other characters are unchanged. -/
def pyUpper (s : String) : String :=
  String.mk (s.data.map fun c => if c = 'δ' then 'Δ' else c.toUpper)

/-- `LearningItem._schedule_next`: `next_review_date = today + INTERVALS[memory_count]`. -/
def schedule_next (it : LearningItem) (today : Nat) : Option LearningItem :=
  match INTERVALS it.memory_count with
  | none => none
  | some d => some { it with next_review_date := today + d }

/-- `LearningItem.review(status, summary_update)`: upper-case the mark,
reject anything outside `{O, Δ, X}`, record status/date/history, update
`memory_count`, then reschedule.  `today` stands for `date.today()`. -/
def review (it : LearningItem) (status : String) (summary_update : Option String)
    (today : Nat) : Option LearningItem :=
  let status := pyUpper status
  if status = "O" ∨ status = "Δ" ∨ status = "X" then
    let it := { it with
      status := status
      last_review_date := today
      history := it.history ++ [⟨today, status⟩] }
    let it := match summary_update with
      | some s => { it with summary := s }
      | none => it
    let it :=
      if status = "O" then { it with memory_count := min (it.memory_count + 1) 3 }
      else if status = "X" then { it with memory_count := 0 }
      else it
    schedule_next it today
  else none

/-- `LearningItem.is_due(on)`: `next_review_date <= on`. -/
def is_due (it : LearningItem) (onD : Nat) : Bool :=
  it.next_review_date ≤ onD

/-- The two item pools held by `LearningDB` (file paths elided). -/
structure LearningDB where
  active : List LearningItem := []
  completed : List LearningItem := []
deriving Repr, DecidableEq

/-- The tag-filter step of `get_due_items`: keep items whose lower-cased
tag set meets the lower-cased wanted set.  A Python `tag_filter` of `None`
or `[]` is falsy and performs no filtering. -/
def tagFilterStep (pool : List LearningItem) (tag_filter : Option (List String)) :
    List LearningItem :=
  match tag_filter with
  | none => pool
  | some [] => pool
  | some ts =>
      let wanted := ts.map String.toLower
      pool.filter fun it => (it.tags.map String.toLower).any (wanted.contains ·)

/-- Sort key of `get_due_items`:
`(date.fromisoformat(next_review_date), memory_count, status == "X")`,
with Python's `False < True` encoded as `0 < 1`. -/
def dueKey (it : LearningItem) : Nat × Nat × Nat :=
  (it.next_review_date, it.memory_count, if it.status = "X" then 1 else 0)

/-- Lexicographic order on the sort key (Python tuple comparison). -/
def dueLE (a b : LearningItem) : Prop :=
  (dueKey a).1 < (dueKey b).1 ∨
    ((dueKey a).1 = (dueKey b).1 ∧
      ((dueKey a).2.1 < (dueKey b).2.1 ∨
        ((dueKey a).2.1 = (dueKey b).2.1 ∧ (dueKey a).2.2 ≤ (dueKey b).2.2)))

instance : DecidableRel dueLE := fun a b =>
  inferInstanceAs (Decidable
    ((dueKey a).1 < (dueKey b).1 ∨
      ((dueKey a).1 = (dueKey b).1 ∧
        ((dueKey a).2.1 < (dueKey b).2.1 ∨
          ((dueKey a).2.1 = (dueKey b).2.1 ∧ (dueKey a).2.2 ≤ (dueKey b).2.2)))))

instance : IsTotal LearningItem dueLE := ⟨by intro a b; unfold dueLE; omega⟩

instance : IsTrans LearningItem dueLE := ⟨by intro a b c; unfold dueLE; omega⟩

/-- `LearningDB.get_due_items(on, tag_filter)`: date filter over the active
pool, optional tag filter, then a stable sort by `dueKey` (Python
`list.sort` is stable; `insertionSort` is the matching stable sort). -/
def get_due_items (db : LearningDB) (onD : Nat) (tag_filter : Option (List String)) :
    List LearningItem :=
  let pool := db.active.filter fun it => is_due it onD
  let pool := tagFilterStep pool tag_filter
  List.insertionSort dueLE pool

/-- The Python signature is `get_due_items(self, on: date = date.today(), ...)`:
the default is evaluated once, when the class body is executed at module load.
`moduleLoadDate` is that frozen value; a call omitting `on` uses it. -/
def get_due_items_default (moduleLoadDate : Nat) (db : LearningDB)
    (tag_filter : Option (List String)) : List LearningItem :=
  get_due_items db moduleLoadDate tag_filter

/-- `LearningDB.review_item(item, status, summary_update)`; the item is
designated by its index in the active pool.  Note the promotion guard
compares the *raw* `status` argument, not the upper-cased mark that
`review` stored. -/
def review_item (db : LearningDB) (i : Nat) (status : String)
    (summary_update : Option String) (today : Nat) : Option LearningDB :=
  match db.active.get? i with
  | none => none
  | some it =>
    match review it status summary_update today with
    | none => none
    | some it' =>
      if it'.memory_count ≥ 3 ∧ status = "O" then
        some { active := db.active.eraseIdx i, completed := db.completed ++ [it'] }
      else
        some { db with active := db.active.set i it' }

/-! ### Word_learning/core.py — record schema normalizer -/

/-- The `tags` slot of a raw persisted record: absent, JSON `null`, a bare
string (legacy), or a list of strings. -/
inductive TagsField
  | missing
  | null
  | str (s : String)
  | list (l : List String)
deriving Repr, DecidableEq

/-- A JSON field that can be absent, `null`, or carry a value. -/
inductive JField (α : Type)
  | missing
  | null
  | val (a : α)
deriving Repr, DecidableEq

/-- One per-mode counter dict: the `"c"` / `"w"` sub-keys may be missing. -/
structure ModeStat where
  c : Option Nat := none
  w : Option Nat := none
deriving Repr, DecidableEq

/-- A raw `words.json` record, with exactly the dynamically-typed shapes
`_ensure_schema` tests for.  `definition_en = none` models an absent key. -/
structure Rec where
  tags : TagsField := .missing
  examples : JField (List String) := .missing
  definition_en : Option String := none
  stats : JField (List (String × ModeStat)) := .missing
  added_at : Option String := none
deriving Repr, DecidableEq

/-- Python dict assignment `d[k] = v`: update in place, else append. -/
def dictSet {α : Type} : List (String × α) → String → α → List (String × α)
  | [], k, v => [(k, v)]
  | (k', v') :: rest, k, v =>
      if k' = k then (k, v) :: rest else (k', v') :: dictSet rest k v

/-- `_REQUIRED_MODES = ("choice", "recall", "spelling", "sentence")`. -/
def REQUIRED_MODES : List String := ["choice", "recall", "spelling", "sentence"]

/-- The tags rules of `_ensure_schema`: absent/`null` → `[]` (changed), a
non-list value is wrapped into a one-element list (changed). -/
def ensureTags : TagsField → List String × Bool
  | .missing => ([], true)
  | .null => ([], true)
  | .str s => ([s], true)
  | .list l => (l, false)

/-- Loop body for one required mode: `mdict = stats.setdefault(mode, {})`
followed by filling missing `"c"` / `"w"` with `0` (the `setdefault` itself
does not raise the changed flag; only the sub-key fills do). -/
def fillMode (d : List (String × ModeStat)) (mode : String) :
    List (String × ModeStat) × Bool :=
  let m := (d.lookup mode).getD {}
  let c := match m.c with | some v => some v | none => some 0
  let w := match m.w with | some v => some v | none => some 0
  (dictSet d mode ⟨c, w⟩, m.c.isNone || m.w.isNone)

/-- The `for mode in _REQUIRED_MODES` loop, changed flags or-ed together. -/
def fillModes : List (String × ModeStat) → List String → List (String × ModeStat) × Bool
  | d, [] => (d, false)
  | d, m :: ms =>
      let (d1, ch1) := fillMode d m
      let (d2, ch2) := fillModes d1 ms
      (d2, ch1 || ch2)

/-- `_ensure_schema(rec)`, with `now` standing for `now_iso()`.  Returns the
corrected record together with the changed flag. -/
def ensure_schema (now : String) (r : Rec) : Rec × Bool :=
  let (tags, ch1) := ensureTags r.tags
  let (examples, ch2) :=
    match r.examples with
    | .missing => (([] : List String), true)
    | .null => ([], true)
    | .val l => (l, false)
  let (defn, ch3) :=
    match r.definition_en with
    | none => ("", true)
    | some s => (s, false)
  let (stats0, ch4) :=
    match r.stats with
    | .missing => (([] : List (String × ModeStat)), false)
    | .null => ([], true)
    | .val d => (d, false)
  let (stats1, ch5) := fillModes stats0 REQUIRED_MODES
  let (added, ch6) :=
    match r.added_at with
    | none => (now, true)
    | some t => (t, false)
  (⟨.list tags, .val examples, some defn, .val stats1, some added⟩,
    ch1 || ch2 || ch3 || ch4 || ch5 || ch6)

/-- `changed = any(_ensure_schema(rec) for rec in db.values())` in `load_db`:
Python's `any` consumes the generator lazily and stops at the first `True`,
so records after the first changed one are returned untouched. -/
def anyEnsure (now : String) : List (String × Rec) → List (String × Rec) × Bool
  | [] => ([], false)
  | (k, r) :: rest =>
      let (r', ch) := ensure_schema now r
      if ch then ((k, r') :: rest, true)
      else
        let (rest', b) := anyEnsure now rest
        ((k, r') :: rest', b)

/-- The in-memory collection `load_db` hands to callers after a successful
parse (the re-persist touches the same value). -/
def load_db_normalize (now : String) (db : List (String × Rec)) :
    List (String × Rec) :=
  (anyEnsure now db).1

/-- Decidable check that a record carries every field `_ensure_schema`
guarantees: list tags, list examples, a definition, a stats dict holding
`c`/`w` for all four required modes, and an `added_at`. -/
def recComplete (r : Rec) : Bool :=
  (match r.tags with | .list _ => true | _ => false) &&
  (match r.examples with | .val _ => true | _ => false) &&
  r.definition_en.isSome &&
  (match r.stats with
   | .val d => REQUIRED_MODES.all fun m =>
       match d.lookup m with
       | some ms => ms.c.isSome && ms.w.isSome
       | none => false
   | _ => false) &&
  r.added_at.isSome

/-! ### Word_learning/quiz.py — selection policy and session log -/

/-- `rec.get("tags", [])` read as a string list (normalized records hold a
list here; any other shape contributes no tags to the set intersection). -/
def tagsGet (r : Rec) : List String :=
  match r.tags with
  | .list l => l
  | _ => []

/-- `db[w]` for a key produced from `db.keys()` (total with a dummy record
for absent keys, which cannot occur for such keys). -/
def dbRec (db : List (String × Rec)) (w : String) : Rec :=
  (db.lookup w).getD {}

/-- `_filter_by_tags(db, include, exclude)`: start from all keys in insertion
order; a truthy `include` keeps keys whose tag set meets it; a truthy
`exclude` drops keys whose tag set meets it.  `None` and `[]` are falsy. -/
def filter_by_tags (db : List (String × Rec))
    (inc : Option (List String)) (exc : Option (List String)) :
    List String :=
  let items := db.map (·.1)
  let items :=
    match inc with
    | none => items
    | some [] => items
    | some want => items.filter fun w => (tagsGet (dbRec db w)).any (want.contains ·)
  match exc with
  | none => items
  | some [] => items
  | some ban => items.filter fun w => !((tagsGet (dbRec db w)).any (ban.contains ·))

/-- The `c` component of `_stats_tuple(rec, key)` (missing ⇒ `0`). -/
def statC (r : Rec) (mode : String) : Nat :=
  match r.stats with
  | .val d => (((d.lookup mode).getD {}).c).getD 0
  | _ => 0

/-- The `w` component of `_stats_tuple(rec, key)` (missing ⇒ `0`). -/
def statW (r : Rec) (mode : String) : Nat :=
  match r.stats with
  | .val d => (((d.lookup mode).getD {}).w).getD 0
  | _ => 0

/-- `rec.get("definition_en", "")`. -/
def defGet (r : Rec) : String :=
  r.definition_en.getD ""

/-- The sort key of `_pick_items_for_choice`: ascending
`(total, -wrong)` for the `"choice"` counters, i.e. total ascending with
ties broken by wrong count descending. -/
def choiceLE (db : List (String × Rec)) (w w' : String) : Prop :=
  statC (dbRec db w) "choice" + statW (dbRec db w) "choice"
      < statC (dbRec db w') "choice" + statW (dbRec db w') "choice" ∨
    (statC (dbRec db w) "choice" + statW (dbRec db w) "choice"
        = statC (dbRec db w') "choice" + statW (dbRec db w') "choice" ∧
      statW (dbRec db w') "choice" ≤ statW (dbRec db w) "choice")

instance (db : List (String × Rec)) : DecidableRel (choiceLE db) :=
  fun a b =>
    inferInstanceAs (Decidable
      (statC (dbRec db a) "choice" + statW (dbRec db a) "choice"
          < statC (dbRec db b) "choice" + statW (dbRec db b) "choice" ∨
        (statC (dbRec db a) "choice" + statW (dbRec db a) "choice"
            = statC (dbRec db b) "choice" + statW (dbRec db b) "choice" ∧
          statW (dbRec db b) "choice" ≤ statW (dbRec db a) "choice")))

instance (db : List (String × Rec)) : IsTotal String (choiceLE db) :=
  ⟨by intro a b; unfold choiceLE; omega⟩

instance (db : List (String × Rec)) : IsTrans String (choiceLE db) :=
  ⟨by intro a b c; unfold choiceLE; omega⟩

/-- Python whitespace as tested by `str.strip()` (the characters that can
occur in this data). -/
def pyIsSpace (c : Char) : Bool :=
  (c = ' ') || (c = '\t') || (c = '\n') || (c = '\r') || (c = '\x0b') || (c = '\x0c')

/-- Python `str.strip()`: drop whitespace from both ends. -/
def pyStrip (s : String) : String :=
  String.mk (((s.data.dropWhile pyIsSpace).reverse.dropWhile pyIsSpace).reverse)

/-- `_pick_items_for_choice(db, n, include_tags, exclude_tags, require_def)`:
tag filtering, optional non-empty-definition filtering, a stable sort by
`(total asc, wrong desc)`, and truncation to `n` (`[:min(n, len)]`). -/
def pick_items_for_choice (db : List (String × Rec)) (n : Nat)
    (include_tags exclude_tags : Option (List String)) (require_def : Bool) :
    List String :=
  let items := filter_by_tags db include_tags exclude_tags
  let items :=
    if require_def then items.filter fun w => pyStrip (defGet (dbRec db w)) ≠ ""
    else items
  (List.insertionSort (choiceLE db) items).take n

/-- Python `str.split("\n")` on the character list (accumulator holds the
current chunk reversed); note `"".split("\n") == [""]`. -/
def splitNl : List Char → List Char → List String
  | [], cur => [String.mk cur.reverse]
  | c :: cs, cur =>
      if c = '\n' then String.mk cur.reverse :: splitNl cs []
      else splitNl cs (c :: cur)

/-- Python `text.strip().split("\n")` of `show_sessions`. -/
def pySplitLines (s : String) : List String :=
  splitNl (pyStrip s).data []

/-- Python slice `l[-limit:]`: for `limit = 0` this is `l[0:]`, the whole
list; otherwise the last `limit` elements. -/
def pySliceLast {α : Type} (l : List α) (limit : Nat) : List α :=
  if limit = 0 then l else l.drop (l.length - limit)

/-- The `for ln in lines: j = json.loads(ln); print(...)` loop of
`show_sessions`: an unparsable line raises, aborting the whole read. -/
def parseLines {α : Type} (parse : String → Option α) : List String → Option (List α)
  | [] => some []
  | ln :: rest =>
      match parse ln with
      | none => none
      | some e =>
          match parseLines parse rest with
          | none => none
          | some es => some (e :: es)

/-- `show_sessions(limit)` over an existing log file with content `content`;
`parse` stands for `json.loads` on one line.  The displayed sequence is
`content.strip().split("\n")[-limit:][::-1]`, parsed in order; `none` is an
uncaught `json.JSONDecodeError`. -/
def show_sessions {α : Type} (parse : String → Option α) (content : String)
    (limit : Nat) : Option (List α) :=
  parseLines parse ((pySliceLast (pySplitLines content) limit).reverse)

/-! ### Word_learning/vocab.py and word_learning_scheduler.py — add_word -/

/-- `Word_learning.vocab.add_word(word, definition_en, examples, tags)`:
inserts a fresh record only when the key is absent (note: only the three
modes `choice`/`recall`/`spelling` are seeded), otherwise leaves the
collection untouched; always saves and speaks. -/
def vocab_add_word (db : List (String × Rec)) (word definition_en : String)
    (examples tags : List String) (now : String) : List (String × Rec) :=
  if (db.lookup word).isSome then db
  else
    db ++ [(word,
      ⟨.list tags, .val examples, some definition_en,
        .val [("choice", ⟨some 0, some 0⟩), ("recall", ⟨some 0, some 0⟩),
          ("spelling", ⟨some 0, some 0⟩)], some now⟩)]

/-- A record of the MVP (`word_learning_scheduler.py`) schema with flat
`correct_cnt` / `wrong_cnt` counters. -/
structure MRec where
  definition_en : String := ""
  examples : List String := []
  tags : List String := []
  correct_cnt : Nat := 0
  wrong_cnt : Nat := 0
  added_at : String := ""
deriving Repr, DecidableEq

/-- `word_learning_scheduler.add_word`: take the existing entry or a default
one, always overwrite `definition_en`, and overwrite `examples` / `tags`
only when the argument is truthy (non-empty). -/
def mvp_add_word (db : List (String × MRec)) (word definition_en : String)
    (examples tags : List String) (now : String) : List (String × MRec) :=
  let entry := (db.lookup word).getD { added_at := now }
  let entry := { entry with definition_en := definition_en }
  let entry := if examples ≠ [] then { entry with examples := examples } else entry
  let entry := if tags ≠ [] then { entry with tags := tags } else entry
  dictSet db word entry

/-! ### Word_learning/utils.py — Levenshtein distance -/

/-- Textbook edit-distance recursion; the specification the row DP of
`levenshtein` is proved against. -/
def levRec : List Char → List Char → Nat
  | [], b => b.length
  | ca :: a, [] => (ca :: a).length
  | ca :: a, cb :: b =>
      min (levRec a (cb :: b) + 1)
        (min (levRec (ca :: a) b + 1)
          (levRec a b + (if ca = cb then 0 else 1)))
termination_by a b => (a.length, b.length)

/-- The inner `for j, cb in enumerate(b, 1)` loop of the pure-Python
fallback: `prev` enters holding `prev[j-1] :: prev[j] :: ...`, `dleft` is
`curr[j-1]`, and each step emits
`min(prev[j] + 1, curr[j-1] + 1, prev[j-1] + (ca != cb))`. -/
def levStep (ca : Char) : List Char → List Nat → Nat → List Nat
  | [], _, _ => []
  | _ :: _, [], _ => []
  | cb :: bs, pj1 :: rest, dleft =>
      let pj := rest.headD 0
      let v := min (pj + 1) (min (dleft + 1) (pj1 + (if ca = cb then 0 else 1)))
      v :: levStep ca bs rest v

/-- The outer `for i, ca in enumerate(a, 1)` loop: each row is
`curr = [i] + inner-loop`, carried as the next `prev`. -/
def levRows (b : List Char) : List Char → List Nat → Nat → List Nat
  | [], prev, _ => prev
  | ca :: as, prev, i => levRows b as (i :: levStep ca b prev i) (i + 1)

/-- The DP after the argument swap: `prev = list(range(len(b)+1))`, the row
loop, then `prev[-1]` (with the `len(b) == 0` early return). -/
def levCore (a b : List Char) : Nat :=
  if b.length = 0 then a.length
  else (levRows b a (List.range (b.length + 1)) 1).getLastD 0

/-- `levenshtein(a, b)` of `Word_learning/utils.py` (pure-Python fallback):
`if len(a) < len(b): a, b = b, a`, then the rolling-row DP.  (Named with a
`Py` suffix because Mathlib already owns the root name `levenshtein`.) -/
def levenshteinPy (a b : List Char) : Nat :=
  if a.length < b.length then levCore b a else levCore a b

/-- `levenshtein` on Python strings (sequences of characters). -/
def levenshteinStr (a b : String) : Nat :=
  levenshteinPy a.data b.data

/-- Proof-side description of one DP row: the row reached after consuming
prefix `p` of `a` and positioned at prefix `bp` of `b` lists the distances
`levRec p bp, levRec p (bp ++ [b₀]), …`. -/
def rowSpec (p : List Char) : List Char → List Char → List Nat
  | bp, [] => [levRec p bp]
  | bp, cb :: bs => levRec p bp :: rowSpec p (bp ++ [cb]) bs

/-! ### Specification-side predicates and concrete instances used by the
claim theorems -/

/-- Per-item reading of the tag-filter step of `get_due_items`. -/
def tagPass (it : LearningItem) (tf : Option (List String)) : Bool :=
  match tf with
  | none => true
  | some [] => true
  | some ts => (it.tags.map String.toLower).any ((ts.map String.toLower).contains ·)

/-- The value `_ensure_schema` leaves in `examples`. -/
def exVal : JField (List String) → List String
  | .missing => []
  | .null => []
  | .val l => l

/-- The stats dict `_ensure_schema` starts its mode loop from. -/
def statsInit (r : Rec) : List (String × ModeStat) :=
  match r.stats with
  | .val d => d
  | _ => []

/-- Lookup of one mode's counter dict in a raw record. -/
def statLookup (r : Rec) (m : String) : Option ModeStat :=
  match r.stats with
  | .val d => d.lookup m
  | _ => none

/-- The stats dict produced for a record that had no `stats` at all. -/
def defaultModes : List (String × ModeStat) :=
  REQUIRED_MODES.map fun m => (m, ⟨some 0, some 0⟩)

/-- The eligible keys of the random-choice quiz as the amended claim words
them: keys surviving the tag filters that have a non-empty stripped
definition. -/
def eligible_choice_spec (db : List (String × Rec))
    (inc exc : Option (List String)) : List String :=
  (filter_by_tags db inc exc).filter fun w => pyStrip (defGet (dbRec db w)) ≠ ""

/-- A stand-in for `json.loads` on the two concrete lines of the session-log
counterexample: the line `1` is valid JSON, the line `x` is malformed. -/
def parse01 : String → Option Nat :=
  fun s => if s = "1" then some 1 else none

/-- Scheduler item with status `"O"`, due at day 0, used by the C2
counterexample (all other fields at their defaults, so it ties with
`c2_itX` on `next_review_date` and `memory_count`). -/
def c2_itO : LearningItem := { status := "O" }

/-- Scheduler item with status `"X"`, due at day 0, tied with `c2_itO`. -/
def c2_itX : LearningItem := { status := "X" }

/-- Active pool holding the two tied items, `c2_itO` first. -/
def c2_db : LearningDB := ⟨[c2_itO, c2_itX], []⟩

/-- Active pool with one item at `memory_count = 2`, one success away from
mastery. -/
def c8_db : LearningDB := ⟨[{ memory_count := 2, status := "Δ" }], []⟩

/-- The item of `c8_db` after a successful review on day 5. -/
def c8_after : LearningItem :=
  { memory_count := 3, status := "O", last_review_date := 5,
    next_review_date := 35, history := [⟨5, "O"⟩] }

/-- A raw legacy record with every optional field absent. -/
def c1_raw : Rec := {}

/-- A stored record whose definition is `"old"`. -/
def c3_old : Rec := { definition_en := some "old" }

/-- Word collection already containing key `"w"`. -/
def c3_db : List (String × Rec) := [("w", c3_old)]

/-- Word collection with a single record that has no definition and no
tags. -/
def c5_db : List (String × Rec) := [("a", {})]

/-! ## Claim theorems -/

/-- C1: `load_db` does *not* migrate every record: `any(...)` short-circuits
at the first record whose normalization reports a change, so on a two-record
legacy collection the second record is handed to callers completely raw,
while the first is fully migrated.  Failing input: `{"a": {}, "b": {}}`. -/
theorem load_db_skips_later_records :
    (load_db_normalize "T" [("a", c1_raw), ("b", c1_raw)]).lookup "b" = some c1_raw
    ∧ recComplete c1_raw = false
    ∧ recComplete (ensure_schema "T" c1_raw).1 = true
    ∧ load_db_normalize "T" [("a", c1_raw), ("b", c1_raw)]
        = [("a", (ensure_schema "T" c1_raw).1), ("b", c1_raw)] := by
  decide

/-- C8: reviewing with the lower-case mark `"o"` (which `review` itself
accepts and normalizes to `"O"`) drives `memory_count` to 3 and stores
status `"O"`, yet `review_item` compares the *raw* argument against `"O"`
and leaves the item in the active pool; the identical review spelled `"O"`
promotes it to the completed pool. -/
theorem review_item_lowercase_o_not_promoted :
    review_item c8_db 0 "o" none 5 = some ⟨[c8_after], []⟩
    ∧ c8_after.memory_count = 3 ∧ c8_after.status = "O"
    ∧ review_item c8_db 0 "O" none 5 = some ⟨[], [c8_after]⟩ := by
  decide

/-- C2 counterexample: two active items both due on day 0, tied on
`next_review_date` and `memory_count`; the code returns the `"O"`-status
item *before* the `"X"`-status item, while the claim requires the `"X"`
item first among ties. -/
theorem get_due_items_x_comes_last_cex :
    get_due_items c2_db 0 none = [c2_itO, c2_itX]
    ∧ c2_itO.status ≠ "X" ∧ c2_itX.status = "X"
    ∧ c2_itO.next_review_date = c2_itX.next_review_date
    ∧ c2_itO.memory_count = c2_itX.memory_count
    ∧ is_due c2_itO 0 = true ∧ is_due c2_itX 0 = true := by
  decide

/-- C3 counterexample: the key `"w"` already exists with definition
`"old"`; `vocab.add_word` with a new definition, examples and tags leaves
the collection byte-for-byte unchanged, so nothing is overwritten. -/
theorem vocab_add_word_no_overwrite_cex :
    vocab_add_word c3_db "w" "new" ["e"] ["t"] "T" = c3_db
    ∧ (c3_db.lookup "w").map Rec.definition_en = some (some "old") := by
  decide

/-- C4 counterexample: a log whose last line `x` is not JSON and makes the
read fail (`none`) instead of being skipped; and with `limit = 0` the
slice `[-0:]` is the whole list, so two entries are returned although
`min(limit, total) = 0`. -/
theorem show_sessions_cex :
    show_sessions parse01 "1\nx" 5 = none
    ∧ show_sessions parse01 "1\n1" 0 = some [1, 1] := by
  decide

/-- C5 counterexample: the only key `"a"` survives the tag filters, so the
claim's eligible set is `{"a"}` and a uniform sample of size
`min(1, 1) = 1` must return it; the code returns the empty sequence because
`"a"` has no (non-empty) definition. -/
theorem quiz_random_not_uniform_sample_cex :
    pick_items_for_choice c5_db 1 none (some ["sentence"]) true = []
    ∧ filter_by_tags c5_db none (some ["sentence"]) = ["a"] := by
  decide

/-! ## Helper lemmas -/

/-- Element-wise reading of the tag-filter step. -/
theorem mem_tagFilterStep (pool : List LearningItem) (tf : Option (List String))
    (it : LearningItem) :
    it ∈ tagFilterStep pool tf ↔ it ∈ pool ∧ tagPass it tf = true := by
  match tf with
  | none => simp [tagFilterStep, tagPass]
  | some [] => simp [tagFilterStep, tagPass]
  | some (t :: ts) => simp [tagFilterStep, tagPass, List.mem_filter]

/-- C10: the date parameter's default is the module-load date, so a call
that omits the date compares against `moduleLoadDate` no matter when it is
made: an item that became due one day after module load is missed by the
default-argument query even though `is_due` holds for it on that day. -/
theorem get_due_items_default_uses_load_date (loadD : Nat) (db : LearningDB)
    (tf : Option (List String)) (it : LearningItem)
    (h : it.next_review_date = loadD + 1) :
    get_due_items_default loadD db tf = get_due_items db loadD tf
    ∧ is_due it (loadD + 1) = true
    ∧ get_due_items_default loadD ⟨[it], []⟩ none = [] := by
  refine ⟨rfl, ?_, ?_⟩
  · simp [is_due, h]
  · simp [get_due_items_default, get_due_items, is_due, h, tagFilterStep]

/-- Witness for C10 at a concrete input. -/
theorem get_due_items_default_uses_load_date_witness :
    ({ next_review_date := 1 } : LearningItem).next_review_date = 0 + 1
    ∧ (get_due_items_default 0 ⟨[], []⟩ none = get_due_items ⟨[], []⟩ 0 none
      ∧ is_due { next_review_date := 1 } (0 + 1) = true
      ∧ get_due_items_default 0 ⟨[{ next_review_date := 1 }], []⟩ none = []) :=
  ⟨by decide, get_due_items_default_uses_load_date 0 ⟨[], []⟩ none
    { next_review_date := 1 } (by decide)⟩

/-- C2 (amended): `get_due_items` returns exactly the active items due on or
before the query date that pass the tag filter, sorted by
`next_review_date` ascending, then `memory_count` ascending, and among ties
items with status `"X"` come *last* (the boolean `status == "X"` sorts
`False` before `True`). -/
theorem get_due_items_spec (db : LearningDB) (onD : Nat)
    (tf : Option (List String)) :
    (∀ it, it ∈ get_due_items db onD tf
      ↔ it ∈ db.active ∧ is_due it onD = true ∧ tagPass it tf = true)
    ∧ List.Sorted dueLE (get_due_items db onD tf) := by
  constructor
  · intro it
    unfold get_due_items
    rw [(List.perm_insertionSort dueLE _).mem_iff, mem_tagFilterStep,
      List.mem_filter]
    tauto
  · exact List.sorted_insertionSort dueLE _

/-- Witness for the C2 specification at a concrete scheduler state. -/
theorem get_due_items_spec_witness :
    (∀ it, it ∈ get_due_items c2_db 0 none
      ↔ it ∈ c2_db.active ∧ is_due it 0 = true ∧ tagPass it none = true)
    ∧ List.Sorted dueLE (get_due_items c2_db 0 none) :=
  get_due_items_spec c2_db 0 none

/-- A successful `parseLines` run yields one entry per line. -/
theorem parseLines_length {α : Type} (parse : String → Option α) :
    ∀ (l : List String) (es : List α),
      parseLines parse l = some es → es.length = l.length
  | [], es => by intro h; simp [parseLines] at h; simp [← h]
  | ln :: rest, es => by
    intro h
    unfold parseLines at h
    cases hp : parse ln with
    | none => rw [hp] at h; exact absurd h (by simp)
    | some e =>
      rw [hp] at h
      cases hr : parseLines parse rest with
      | none => rw [hr] at h; exact absurd h (by simp)
      | some es' =>
        rw [hr] at h
        cases h
        simpa using parseLines_length parse rest es' hr

/-- A single unparsable line aborts the whole `parseLines` run. -/
theorem parseLines_none {α : Type} (parse : String → Option α) :
    ∀ (l : List String), (∃ ln ∈ l, parse ln = none) →
      parseLines parse l = none
  | [] => by rintro ⟨ln, h, -⟩; cases h
  | ln :: rest => by
    rintro ⟨ln', hmem, hp⟩
    unfold parseLines
    rcases List.mem_cons.mp hmem with h | h
    · subst h; rw [hp]
    · cases hq : parse ln with
      | none => rfl
      | some e => rw [parseLines_none parse rest ⟨ln', h, hp⟩]

/-- `l[-limit:]` has `min limit (len l)` elements once `limit ≥ 1`. -/
theorem pySliceLast_length {α : Type} (l : List α) (limit : Nat)
    (h : 1 ≤ limit) : (pySliceLast l limit).length = min limit l.length := by
  unfold pySliceLast
  rw [if_neg (by omega)]
  rw [List.length_drop]
  omega

/-- C4 (amended): for `limit ≥ 1`, a successful read returns exactly
`min(limit, total)` entries (most recent first by construction); but a
malformed line among the selected ones makes the whole read fail instead of
being skipped (and `limit = 0` returns every entry, per the
counterexample). -/
theorem show_sessions_spec {α : Type} (parse : String → Option α)
    (content : String) (limit : Nat) (h : 1 ≤ limit) :
    (∀ es, show_sessions parse content limit = some es →
      es.length = min limit (pySplitLines content).length)
    ∧ ((∃ ln ∈ pySliceLast (pySplitLines content) limit, parse ln = none) →
      show_sessions parse content limit = none) := by
  constructor
  · intro es hes
    have hl := parseLines_length parse _ _ hes
    rw [List.length_reverse] at hl
    rw [hl, pySliceLast_length _ _ h]
  · rintro ⟨ln, hmem, hp⟩
    exact parseLines_none parse _ ⟨ln, by simpa using hmem, hp⟩

/-- Witness for C4 at a concrete log content and limit. -/
theorem show_sessions_spec_witness :
    1 ≤ 2
    ∧ ((∀ es, show_sessions parse01 "1\n1\n1" 2 = some es →
        es.length = min 2 (pySplitLines "1\n1\n1").length)
      ∧ ((∃ ln ∈ pySliceLast (pySplitLines "1\n1\n1") 2, parse01 ln = none) →
        show_sessions parse01 "1\n1\n1" 2 = none)) :=
  ⟨by decide, show_sessions_spec parse01 "1\n1\n1" 2 (by decide)⟩

/-- C5 (amended): the random-choice quiz's selection is deterministic, not
a uniform random sample: it is exactly the eligible list (tag filters plus
non-empty stripped definition) stably sorted by ascending choice-attempt
total with ties broken by descending wrong count, truncated to its first
`min(n, #eligible)` keys; hence its length, its membership in the eligible
set, and its sortedness. -/
theorem pick_items_for_choice_spec (db : List (String × Rec)) (n : Nat)
    (inc exc : Option (List String)) :
    pick_items_for_choice db n inc exc true
        = (List.insertionSort (choiceLE db) (eligible_choice_spec db inc exc)).take n
    ∧ (pick_items_for_choice db n inc exc true).length
        = min n (eligible_choice_spec db inc exc).length
    ∧ (∀ w ∈ pick_items_for_choice db n inc exc true,
        w ∈ eligible_choice_spec db inc exc)
    ∧ List.Sorted (choiceLE db) (pick_items_for_choice db n inc exc true) := by
  have e1 : pick_items_for_choice db n inc exc true
      = (List.insertionSort (choiceLE db) (eligible_choice_spec db inc exc)).take n := by
    simp [pick_items_for_choice, eligible_choice_spec]
  rw [e1]
  refine ⟨rfl, ?_, ?_, ?_⟩
  · rw [List.length_take, (List.perm_insertionSort (choiceLE db) _).length_eq]
  · intro w hw
    exact (List.perm_insertionSort (choiceLE db) _).mem_iff.mp
      (List.take_subset _ _ hw)
  · exact List.Pairwise.sublist (List.take_sublist n _)
      (List.sorted_insertionSort (choiceLE db) _)

/-- Witness for C5 at a concrete collection. -/
theorem pick_items_for_choice_spec_witness :
    pick_items_for_choice c5_db 1 none none true
        = (List.insertionSort (choiceLE c5_db) (eligible_choice_spec c5_db none none)).take 1
    ∧ (pick_items_for_choice c5_db 1 none none true).length
        = min 1 (eligible_choice_spec c5_db none none).length
    ∧ (∀ w ∈ pick_items_for_choice c5_db 1 none none true,
        w ∈ eligible_choice_spec c5_db none none)
    ∧ List.Sorted (choiceLE c5_db) (pick_items_for_choice c5_db 1 none none true) :=
  pick_items_for_choice_spec c5_db 1 none none

/-- The interval table is total on the invariant range of `memory_count`. -/
theorem INTERVALS_of_le (n : Nat) (h : n ≤ 3) : ∃ iv, INTERVALS n = some iv := by
  interval_cases n <;> exact ⟨_, rfl⟩

/-- C7: a valid review mark `"O"`/`"Δ"`/`"X"` (after upper-casing) succeeds,
sets `memory_count` to `min(mc+1,3)` / resets it to `0` / leaves it
respectively, recomputes `next_review_date` as the review date plus the
`INTERVALS` entry of the post-review `memory_count`, and appends exactly
one `{date, status}` record to the history. -/
theorem review_spec (it : LearningItem) (s : String) (su : Option String)
    (today : Nat) (hmc : it.memory_count ≤ 3)
    (hs : pyUpper s = "O" ∨ pyUpper s = "Δ" ∨ pyUpper s = "X") :
    ∃ it' iv, review it s su today = some it'
      ∧ it'.memory_count = (if pyUpper s = "O" then min (it.memory_count + 1) 3
          else if pyUpper s = "X" then 0 else it.memory_count)
      ∧ INTERVALS it'.memory_count = some iv
      ∧ it'.next_review_date = today + iv
      ∧ it'.history = it.history ++ [⟨today, pyUpper s⟩]
      ∧ it'.status = pyUpper s := by
  rcases hs with h | h | h
  · obtain ⟨iv, hiv⟩ := INTERVALS_of_le (min (it.memory_count + 1) 3) (by omega)
    cases su with
    | none =>
      refine ⟨{ it with
          last_review_date := today,
          next_review_date := today + iv,
          memory_count := min (it.memory_count + 1) 3,
          status := "O",
          history := it.history ++ [⟨today, "O"⟩] }, iv,
        ?_, by simp [h], by simpa using hiv, rfl, by simp [h], by simp [h]⟩
      simp [review, h, schedule_next, hiv]
    | some s' =>
      refine ⟨{ it with
          summary := s',
          last_review_date := today,
          next_review_date := today + iv,
          memory_count := min (it.memory_count + 1) 3,
          status := "O",
          history := it.history ++ [⟨today, "O"⟩] }, iv,
        ?_, by simp [h], by simpa using hiv, rfl, by simp [h], by simp [h]⟩
      simp [review, h, schedule_next, hiv]
  · obtain ⟨iv, hiv⟩ := INTERVALS_of_le it.memory_count hmc
    cases su with
    | none =>
      refine ⟨{ it with
          last_review_date := today,
          next_review_date := today + iv,
          status := "Δ",
          history := it.history ++ [⟨today, "Δ"⟩] }, iv,
        ?_, by simp [h], by simpa using hiv, rfl, by simp [h], by simp [h]⟩
      simp [review, h, schedule_next, hiv]
    | some s' =>
      refine ⟨{ it with
          summary := s',
          last_review_date := today,
          next_review_date := today + iv,
          status := "Δ",
          history := it.history ++ [⟨today, "Δ"⟩] }, iv,
        ?_, by simp [h], by simpa using hiv, rfl, by simp [h], by simp [h]⟩
      simp [review, h, schedule_next, hiv]
  · obtain ⟨iv, hiv⟩ := INTERVALS_of_le 0 (by omega)
    cases su with
    | none =>
      refine ⟨{ it with
          last_review_date := today,
          next_review_date := today + iv,
          memory_count := 0,
          status := "X",
          history := it.history ++ [⟨today, "X"⟩] }, iv,
        ?_, by simp [h], by simpa using hiv, rfl, by simp [h], by simp [h]⟩
      simp [review, h, schedule_next, hiv]
    | some s' =>
      refine ⟨{ it with
          summary := s',
          last_review_date := today,
          next_review_date := today + iv,
          memory_count := 0,
          status := "X",
          history := it.history ++ [⟨today, "X"⟩] }, iv,
        ?_, by simp [h], by simpa using hiv, rfl, by simp [h], by simp [h]⟩
      simp [review, h, schedule_next, hiv]

/-- Witness for C7: reviewing a fresh item with the mark `"o"`. -/
theorem review_spec_witness :
    ({} : LearningItem).memory_count ≤ 3
    ∧ (pyUpper "o" = "O" ∨ pyUpper "o" = "Δ" ∨ pyUpper "o" = "X")
    ∧ ∃ it' iv, review {} "o" none 7 = some it'
      ∧ it'.memory_count = (if pyUpper "o" = "O" then min (({} : LearningItem).memory_count + 1) 3
          else if pyUpper "o" = "X" then 0 else ({} : LearningItem).memory_count)
      ∧ INTERVALS it'.memory_count = some iv
      ∧ it'.next_review_date = 7 + iv
      ∧ it'.history = ({} : LearningItem).history ++ [⟨7, pyUpper "o"⟩]
      ∧ it'.status = pyUpper "o" :=
  ⟨by decide, by decide, review_spec {} "o" none 7 (by decide) (by decide)⟩

/-- `List.lookup` at the head key. -/
theorem lookup_cons_self {α : Type} (k : String) (v : α)
    (tl : List (String × α)) : List.lookup k ((k, v) :: tl) = some v := by
  simp [List.lookup]

/-- `List.lookup` skips a head with a different key. -/
theorem lookup_cons_ne {α : Type} (k k' : String) (v : α)
    (tl : List (String × α)) (h : k ≠ k') :
    List.lookup k ((k', v) :: tl) = List.lookup k tl := by
  simp [List.lookup, beq_eq_false_iff_ne.mpr h]

/-- Looking up the key just written by `dictSet` yields the new value. -/
theorem lookup_dictSet_self {α : Type} (d : List (String × α)) (k : String)
    (v : α) : (dictSet d k v).lookup k = some v := by
  induction d with
  | nil => simp [dictSet]
  | cons hd tl ih =>
    obtain ⟨k', v'⟩ := hd
    by_cases h : k' = k
    · simp [dictSet, h, lookup_cons_self]
    · simp [dictSet, h, lookup_cons_ne k k' v' _ (fun hh => h hh.symm), ih]

/-- `dictSet` leaves other keys' lookups unchanged. -/
theorem lookup_dictSet_ne {α : Type} (d : List (String × α)) (k k' : String)
    (v : α) (h : k' ≠ k) : (dictSet d k v).lookup k' = d.lookup k' := by
  induction d with
  | nil => simp [dictSet, lookup_cons_ne k' k v [] h]
  | cons hd tl ih =>
    obtain ⟨k'', v''⟩ := hd
    by_cases h2 : k'' = k
    · subst h2
      simp [dictSet, lookup_cons_ne k' k'' v _ h, lookup_cons_ne k' k'' v'' _ h]
    · by_cases h3 : k' = k''
      · subst h3
        simp [dictSet, h2, lookup_cons_self]
      · simp [dictSet, h2, lookup_cons_ne k' k'' v'' _ h3, ih]

/-- Writing back the value already stored is a no-op. -/
theorem dictSet_of_lookup_eq {α : Type} (d : List (String × α)) (k : String)
    (v : α) (h : d.lookup k = some v) : dictSet d k v = d := by
  induction d with
  | nil => simp at h
  | cons hd tl ih =>
    obtain ⟨k', v'⟩ := hd
    by_cases h2 : k = k'
    · subst h2
      rw [lookup_cons_self] at h
      cases h
      simp [dictSet]
    · rw [lookup_cons_ne k k' v' tl h2] at h
      have h4 : ¬ (k' = k) := fun hh => h2 hh.symm
      simp only [dictSet, h4, if_false, ih h]

/-- Two successive writes to the same key collapse to the second. -/
theorem dictSet_dictSet {α : Type} (d : List (String × α)) (k : String)
    (v v' : α) : dictSet (dictSet d k v) k v' = dictSet d k v' := by
  induction d with
  | nil => simp [dictSet]
  | cons hd tl ih =>
    obtain ⟨k'', v''⟩ := hd
    by_cases h : k'' = k
    · simp [dictSet, h]
    · simp [dictSet, h, ih]

/-- Appending a fresh key at the tail makes it findable. -/
theorem lookup_append_single {α : Type} (d : List (String × α)) (k : String)
    (v : α) (h : d.lookup k = none) : (d ++ [(k, v)]).lookup k = some v := by
  induction d with
  | nil => simp [lookup_cons_self]
  | cons hd tl ih =>
    obtain ⟨k', v'⟩ := hd
    by_cases h2 : k = k'
    · subst h2; rw [lookup_cons_self] at h; cases h
    · rw [lookup_cons_ne k k' v' tl h2] at h
      simp only [List.cons_append]
      rw [lookup_cons_ne k k' v' _ h2, ih h]

/-- C3 (amended): an "add" of an existing key is not a full overwrite.
`Word_learning.vocab.add_word` leaves the collection entirely unchanged
(insert-only); `word_learning_scheduler.add_word` always overwrites the
definition but replaces examples/tags only when the new argument is
non-empty, preserving the stats counters and `added_at`; both are
idempotent. -/
theorem add_word_upsert_spec (db : List (String × Rec))
    (mdb : List (String × MRec)) (word d now : String) (ex tg : List String)
    (m : MRec) :
    ((db.lookup word).isSome → vocab_add_word db word d ex tg now = db)
    ∧ (mdb.lookup word = some m →
      (mvp_add_word mdb word d ex tg now).lookup word =
        some { m with
          definition_en := d,
          examples := if ex = [] then m.examples else ex,
          tags := if tg = [] then m.tags else tg })
    ∧ vocab_add_word (vocab_add_word db word d ex tg now) word d ex tg now
        = vocab_add_word db word d ex tg now
    ∧ mvp_add_word (mvp_add_word mdb word d ex tg now) word d ex tg now
        = mvp_add_word mdb word d ex tg now := by
  refine ⟨?_, ?_, ?_, ?_⟩
  · intro h
    simp [vocab_add_word, h]
  · intro hm
    by_cases hex : ex = [] <;> by_cases htg : tg = [] <;>
      simp [mvp_add_word, hm, hex, htg, lookup_dictSet_self]
  · by_cases h : (db.lookup word).isSome
    · simp [vocab_add_word, h]
    · rw [Option.not_isSome_iff_eq_none] at h
      have h2 := lookup_append_single db word
        (⟨.list tg, .val ex, some d,
          .val [("choice", ⟨some 0, some 0⟩), ("recall", ⟨some 0, some 0⟩),
            ("spelling", ⟨some 0, some 0⟩)], some now⟩ : Rec) h
      simp [vocab_add_word, h, h2]
  · cases hm0 : mdb.lookup word with
    | none =>
      by_cases hex : ex = [] <;> by_cases htg : tg = [] <;>
        simp [mvp_add_word, hm0, hex, htg, lookup_dictSet_self, dictSet_dictSet]
    | some m0 =>
      by_cases hex : ex = [] <;> by_cases htg : tg = [] <;>
        simp [mvp_add_word, hm0, hex, htg, lookup_dictSet_self, dictSet_dictSet]

/-- Witness for C3 at a concrete collection (`"w"` present in both
schemas). -/
theorem add_word_upsert_spec_witness :
    ([("w", ({ definition_en := "od" } : MRec))].lookup "w"
        = some { definition_en := "od" })
    ∧ (((c3_db.lookup "w").isSome → vocab_add_word c3_db "w" "new" [] [] "T" = c3_db)
      ∧ ([("w", ({ definition_en := "od" } : MRec))].lookup "w"
            = some { definition_en := "od" } →
        (mvp_add_word [("w", { definition_en := "od" })] "w" "new" [] [] "T").lookup "w"
          = some { ({ definition_en := "od" } : MRec) with
              definition_en := "new",
              examples := if ([] : List String) = [] then
                ({ definition_en := "od" } : MRec).examples else [],
              tags := if ([] : List String) = [] then
                ({ definition_en := "od" } : MRec).tags else [] })
      ∧ vocab_add_word (vocab_add_word c3_db "w" "new" [] [] "T") "w" "new" [] [] "T"
          = vocab_add_word c3_db "w" "new" [] [] "T"
      ∧ mvp_add_word (mvp_add_word [("w", { definition_en := "od" })] "w" "new" [] [] "T")
            "w" "new" [] [] "T"
          = mvp_add_word [("w", { definition_en := "od" })] "w" "new" [] [] "T") :=
  ⟨by decide,
    add_word_upsert_spec c3_db [("w", { definition_en := "od" })] "w" "new" "T" [] []
      { definition_en := "od" }⟩

/-- The entry `fillMode` leaves under its own mode key: existing counter
values survive, missing ones become `0`. -/
theorem fillMode_lookup_self (d : List (String × ModeStat)) (m : String) :
    ((fillMode d m).1).lookup m =
      some ⟨some (((d.lookup m).getD {}).c.getD 0),
        some (((d.lookup m).getD {}).w.getD 0)⟩ := by
  unfold fillMode
  simp only [lookup_dictSet_self]
  cases hc : ((d.lookup m).getD {}).c <;> cases hw : ((d.lookup m).getD {}).w <;>
    simp [hc, hw]

/-- `fillMode` does not touch other mode keys. -/
theorem fillMode_lookup_ne (d : List (String × ModeStat)) (m m' : String)
    (h : m' ≠ m) : ((fillMode d m).1).lookup m' = d.lookup m' := by
  unfold fillMode
  exact lookup_dictSet_ne _ _ _ _ h

/-- On an already-complete entry `fillMode` is a no-op reporting no
change. -/
theorem fillMode_noop (d : List (String × ModeStat)) (m : String) (a b : Nat)
    (h : d.lookup m = some ⟨some a, some b⟩) : fillMode d m = (d, false) := by
  unfold fillMode
  rw [h]
  simpa using dictSet_of_lookup_eq d m ⟨some a, some b⟩ h

/-- Complete entries survive the whole mode loop unchanged. -/
theorem fillModes_preserve_complete (ms : List String) :
    ∀ (d : List (String × ModeStat)) (m' : String) (a b : Nat),
      d.lookup m' = some ⟨some a, some b⟩ →
      ((fillModes d ms).1).lookup m' = some ⟨some a, some b⟩ := by
  induction ms with
  | nil => intro d m' a b h; exact h
  | cons m0 ms' ih =>
    intro d m' a b h
    unfold fillModes
    by_cases hm : m' = m0
    · subst hm
      rw [fillMode_noop d m' a b h]
      exact ih d m' a b h
    · exact ih _ m' a b ((fillMode_lookup_ne d m0 m' hm).trans h)

/-- After the loop, every listed mode has a complete entry. -/
theorem fillModes_mem_complete (ms : List String) :
    ∀ (d : List (String × ModeStat)) (m : String), m ∈ ms →
      ∃ a b, ((fillModes d ms).1).lookup m = some ⟨some a, some b⟩ := by
  induction ms with
  | nil => intro d m h; cases h
  | cons m0 ms' ih =>
    intro d m hm
    unfold fillModes
    rcases List.mem_cons.mp hm with h | h
    · subst h
      exact ⟨_, _, fillModes_preserve_complete ms' _ m _ _
        (fillMode_lookup_self d m)⟩
    · exact ih _ m h

/-- When every listed mode is already complete the loop is the identity and
reports no change. -/
theorem fillModes_noop (ms : List String) :
    ∀ (d : List (String × ModeStat)),
      (∀ m ∈ ms, ∃ a b, d.lookup m = some ⟨some a, some b⟩) →
      fillModes d ms = (d, false) := by
  induction ms with
  | nil => intro d _; rfl
  | cons m0 ms' ih =>
    intro d h
    obtain ⟨a, b, hab⟩ := h m0 (List.mem_cons_self m0 ms')
    simp only [fillModes, fillMode_noop d m0 a b hab,
      ih d fun m hm => h m (List.mem_cons_of_mem m0 hm), Bool.or_self]

/-- Counter values present before the loop are still present (unchanged)
after it. -/
theorem fillModes_entry_preserve (ms : List String) :
    ∀ (d : List (String × ModeStat)) (m : String) (ms0 : ModeStat),
      d.lookup m = some ms0 →
      ∃ ms', ((fillModes d ms).1).lookup m = some ms'
        ∧ (∀ v, ms0.c = some v → ms'.c = some v)
        ∧ (∀ v, ms0.w = some v → ms'.w = some v) := by
  induction ms with
  | nil =>
    intro d m ms0 h
    exact ⟨ms0, h, fun v hv => hv, fun v hv => hv⟩
  | cons m0 ms' ih =>
    intro d m ms0 h
    unfold fillModes
    by_cases hm : m = m0
    · subst hm
      refine ⟨⟨some (ms0.c.getD 0), some (ms0.w.getD 0)⟩,
        fillModes_preserve_complete ms' _ m _ _ ?_, ?_, ?_⟩
      · have := fillMode_lookup_self d m
        rw [h] at this
        simpa using this
      · intro v hv; simp [hv]
      · intro v hv; simp [hv]
    · exact ih _ m ms0 ((fillMode_lookup_ne d m0 m hm).trans h)

/-- The record `_ensure_schema` returns, componentwise. -/
theorem ensure_schema_val (now : String) (r : Rec) :
    (ensure_schema now r).1 =
      ⟨.list (ensureTags r.tags).1, .val (exVal r.examples),
        some (r.definition_en.getD ""),
        .val (fillModes (statsInit r) REQUIRED_MODES).1,
        some (r.added_at.getD now)⟩ := by
  obtain ⟨tg, ex, de, st, ad⟩ := r
  cases ex <;> cases de <;> cases st <;> cases ad <;> rfl

/-- A normalized record passes the completeness check. -/
theorem ensure_schema_complete (now : String) (r : Rec) :
    recComplete (ensure_schema now r).1 = true := by
  rw [ensure_schema_val]
  simp only [recComplete, Option.isSome_some, Bool.and_true, Bool.true_and,
    List.all_eq_true]
  intro m hm
  obtain ⟨a, b, hab⟩ := fillModes_mem_complete REQUIRED_MODES _ m hm
  rw [hab]
  rfl

/-- On a complete record `_ensure_schema` is the identity and reports
`changed = False`. -/
theorem ensure_schema_complete_noop (now : String) (r : Rec)
    (h : recComplete r = true) : ensure_schema now r = (r, false) := by
  obtain ⟨tg, ex, de, st, ad⟩ := r
  simp only [recComplete, Bool.and_eq_true, List.all_eq_true] at h
  obtain ⟨⟨⟨⟨htg, hex⟩, hde⟩, hst⟩, had⟩ := h
  cases tg with
  | missing => simp at htg
  | null => simp at htg
  | str s => simp at htg
  | list tl =>
  cases ex with
  | missing => simp at hex
  | null => simp at hex
  | val el =>
  cases de with
  | none => simp at hde
  | some de =>
  cases st with
  | missing => simp at hst
  | null => simp at hst
  | val dd =>
  cases ad with
  | none => simp at had
  | some ad =>
  simp only [List.all_eq_true] at hst
  have hfill : fillModes dd REQUIRED_MODES = (dd, false) := by
    apply fillModes_noop
    intro m hm
    have := hst m hm
    cases hl : dd.lookup m with
    | none => rw [hl] at this; exact absurd this (by simp)
    | some ms =>
      rw [hl] at this
      simp only [Bool.and_eq_true, Option.isSome_iff_exists] at this
      obtain ⟨c0, w0⟩ := ms
      obtain ⟨⟨a, ha⟩, ⟨b, hb⟩⟩ := this
      subst ha
      subst hb
      exact ⟨a, b, by simp_all⟩
  simp [ensure_schema, ensureTags, statsInit, hfill]

/-- C6: one application of `_ensure_schema` makes every guaranteed field
present (with the documented defaults for previously-missing fields, in
particular zeroed counters for all four required modes of a record without
`stats`), a second application is the identity reporting `changed = False`,
and counter values already present are never overwritten. -/
theorem ensure_schema_spec (now now2 : String) (r : Rec) :
    recComplete (ensure_schema now r).1 = true
    ∧ ensure_schema now2 (ensure_schema now r).1 = ((ensure_schema now r).1, false)
    ∧ (r.tags = .missing → (ensure_schema now r).1.tags = .list [])
    ∧ (r.examples = .missing → (ensure_schema now r).1.examples = .val [])
    ∧ (r.definition_en = none → (ensure_schema now r).1.definition_en = some "")
    ∧ (r.stats = .missing → (ensure_schema now r).1.stats = .val defaultModes)
    ∧ (r.added_at = none → (ensure_schema now r).1.added_at = some now)
    ∧ (∀ m ms0, statLookup r m = some ms0 →
        ∃ ms', statLookup (ensure_schema now r).1 m = some ms'
          ∧ (∀ v, ms0.c = some v → ms'.c = some v)
          ∧ (∀ v, ms0.w = some v → ms'.w = some v)) := by
  refine ⟨ensure_schema_complete now r,
    ensure_schema_complete_noop now2 _ (ensure_schema_complete now r),
    ?_, ?_, ?_, ?_, ?_, ?_⟩
  · intro h; rw [ensure_schema_val]; simp [ensureTags, h]
  · intro h; rw [ensure_schema_val]; simp [exVal, h]
  · intro h; rw [ensure_schema_val]; simp [h]
  · intro h
    rw [ensure_schema_val]
    have h0 : statsInit r = [] := by simp [statsInit, h]
    rw [h0]
    show JField.val (fillModes [] REQUIRED_MODES).1 = JField.val defaultModes
    decide
  · intro h; rw [ensure_schema_val]; simp [h]
  · intro m ms0 h
    have hst : ∃ dd, r.stats = .val dd ∧ dd.lookup m = some ms0 := by
      unfold statLookup at h
      cases hs : r.stats with
      | missing => rw [hs] at h; cases h
      | null => rw [hs] at h; cases h
      | val dd => rw [hs] at h; exact ⟨dd, rfl, h⟩
    obtain ⟨dd, hdd, hl⟩ := hst
    obtain ⟨ms', hms', hc, hw⟩ :=
      fillModes_entry_preserve REQUIRED_MODES dd m ms0 hl
    refine ⟨ms', ?_, hc, hw⟩
    rw [ensure_schema_val]
    have : statsInit r = dd := by simp [statsInit, hdd]
    simp only [statLookup, this]
    exact hms'

/-- Witness for C6 on the all-fields-missing record. -/
theorem ensure_schema_spec_witness :
    recComplete (ensure_schema "T" {}).1 = true
    ∧ ensure_schema "T2" (ensure_schema "T" {}).1 = ((ensure_schema "T" {}).1, false)
    ∧ (({} : Rec).tags = .missing → (ensure_schema "T" {}).1.tags = .list [])
    ∧ (({} : Rec).examples = .missing → (ensure_schema "T" {}).1.examples = .val [])
    ∧ (({} : Rec).definition_en = none → (ensure_schema "T" {}).1.definition_en = some "")
    ∧ (({} : Rec).stats = .missing → (ensure_schema "T" {}).1.stats = .val defaultModes)
    ∧ (({} : Rec).added_at = none → (ensure_schema "T" {}).1.added_at = some "T")
    ∧ (∀ m ms0, statLookup {} m = some ms0 →
        ∃ ms', statLookup (ensure_schema "T" {}).1 m = some ms'
          ∧ (∀ v, ms0.c = some v → ms'.c = some v)
          ∧ (∀ v, ms0.w = some v → ms'.w = some v)) :=
  ensure_schema_spec "T" "T2" {}

/-- `levRec` on an empty first argument is the length of the second. -/
theorem levRec_nil_left (b : List Char) : levRec [] b = b.length := by
  cases b <;> simp [levRec]

/-- `levRec` on an empty second argument is the length of the first. -/
theorem levRec_nil_right (a : List Char) : levRec a [] = a.length := by
  cases a <;> simp [levRec]

/-- The defining recurrence of `levRec` in rewrite-rule form. -/
theorem levRec_cons_cons (ca : Char) (a : List Char) (cb : Char) (b : List Char) :
    levRec (ca :: a) (cb :: b) =
      min (levRec a (cb :: b) + 1)
        (min (levRec (ca :: a) b + 1)
          (levRec a b + (if ca = cb then 0 else 1))) := by
  simp [levRec]

/-- The same recurrence read off the *last* characters: the form in which
the forward row DP extends prefixes. -/
theorem levRec_snoc (c d : Char) : ∀ (p q : List Char),
    levRec (p ++ [c]) (q ++ [d]) =
      min (levRec p (q ++ [d]) + 1)
        (min (levRec (p ++ [c]) q + 1)
          (levRec p q + (if c = d then 0 else 1))) := by
  intro p
  induction p with
  | nil =>
    intro q
    induction q with
    | nil => simp [levRec]
    | cons e q' ihq =>
      simp only [List.nil_append, List.cons_append] at ihq ⊢
      rw [levRec_cons_cons c [] e (q' ++ [d]), ihq,
        levRec_cons_cons c [] e q']
      simp only [levRec_nil_left, List.length_cons, List.length_append,
        List.length_singleton, List.length_nil]
      omega
  | cons x p' ihp =>
    intro q
    induction q with
    | nil =>
      have h1 := ihp []
      simp only [List.nil_append, List.cons_append] at h1 ⊢
      rw [levRec_cons_cons x (p' ++ [c]) d [], h1,
        levRec_cons_cons x p' d []]
      simp only [levRec_nil_right, List.length_cons, List.length_append,
        List.length_singleton, List.length_nil]
      omega
    | cons e q' ihq =>
      have h1 := ihp (e :: q')
      have h3 := ihp q'
      simp only [List.cons_append] at h1 ihq h3 ⊢
      rw [levRec_cons_cons x (p' ++ [c]) e (q' ++ [d]), h1, ihq, h3,
        levRec_cons_cons x p' e (q' ++ [d]),
        levRec_cons_cons x (p' ++ [c]) e q',
        levRec_cons_cons x p' e q']
      simp only [← min_add_add_right]
      refine le_antisymm ?_ ?_ <;> simp only [le_min_iff, min_le_iff] <;> omega

/-- The substitution cost is symmetric. -/
theorem levCost_symm (c d : Char) :
    (if c = d then (0 : Nat) else 1) = (if d = c then 0 else 1) := by
  by_cases h : c = d
  · simp [h]
  · rw [if_neg h, if_neg (fun hh : d = c => h hh.symm)]

/-- Edit distance is symmetric. -/
theorem levRec_symm : ∀ (a b : List Char), levRec a b = levRec b a := by
  intro a
  induction a with
  | nil =>
    intro b
    rw [levRec_nil_left, levRec_nil_right]
  | cons x a' iha =>
    intro b
    induction b with
    | nil => rw [levRec_nil_left, levRec_nil_right]
    | cons y b' ihb =>
      rw [levRec_cons_cons x a' y b', levRec_cons_cons y b' x a',
        iha (y :: b'), iha b', ihb, levCost_symm]
      omega

/-- Zero distance on the diagonal. -/
theorem levRec_self : ∀ (a : List Char), levRec a a = 0 := by
  intro a
  induction a with
  | nil => rw [levRec_nil_left]; rfl
  | cons x a' ih =>
    rw [levRec_cons_cons x a' x a', ih]
    simp

/-- The distance never exceeds the longer length. -/
theorem levRec_le_max : ∀ (a b : List Char), levRec a b ≤ max a.length b.length := by
  intro a
  induction a with
  | nil =>
    intro b
    rw [levRec_nil_left]
    omega
  | cons x a' iha =>
    intro b
    cases b with
    | nil =>
      rw [levRec_nil_right]
      simp
    | cons y b' =>
      have h1 := iha b'
      have hc : (if x = y then (0 : Nat) else 1) ≤ 1 := by split <;> omega
      rw [levRec_cons_cons x a' y b']
      simp only [List.length_cons]
      omega

/-- The first entry of a specified row. -/
theorem rowSpec_headD (p bp bs : List Char) (d0 : Nat) :
    (rowSpec p bp bs).headD d0 = levRec p bp := by
  cases bs <;> rfl

/-- One pass of the inner loop turns the row for prefix `p` into the row
for prefix `p ++ [ca]`. -/
theorem levStep_rowSpec (ca : Char) (p : List Char) : ∀ (bs bp : List Char),
    levRec (p ++ [ca]) bp
        :: levStep ca bs (rowSpec p bp bs) (levRec (p ++ [ca]) bp)
      = rowSpec (p ++ [ca]) bp bs := by
  intro bs
  induction bs with
  | nil => intro bp; rfl
  | cons cb bs' ih =>
    intro bp
    have hv : min ((rowSpec p (bp ++ [cb]) bs').headD 0 + 1)
        (min (levRec (p ++ [ca]) bp + 1)
          (levRec p bp + (if ca = cb then 0 else 1)))
        = levRec (p ++ [ca]) (bp ++ [cb]) := by
      rw [rowSpec_headD]
      exact (levRec_snoc ca cb p bp).symm
    show levRec (p ++ [ca]) bp
        :: levStep ca (cb :: bs') (levRec p bp :: rowSpec p (bp ++ [cb]) bs')
            (levRec (p ++ [ca]) bp)
      = levRec (p ++ [ca]) bp :: rowSpec (p ++ [ca]) (bp ++ [cb]) bs'
    simp only [levStep]
    rw [hv, ih (bp ++ [cb])]

/-- The outer loop advances the specified row across the consumed prefix of
`a`. -/
theorem levRows_rowSpec (b : List Char) : ∀ (as p : List Char),
    levRows b as (rowSpec p [] b) (p.length + 1) = rowSpec (p ++ as) [] b := by
  intro as
  induction as with
  | nil => intro p; simp [levRows]
  | cons ca as' ih =>
    intro p
    have hlen : levRec (p ++ [ca]) [] = p.length + 1 := by
      rw [levRec_nil_right]; simp
    have hstep := levStep_rowSpec ca p b []
    rw [hlen] at hstep
    show levRows b as'
        ((p.length + 1) :: levStep ca b (rowSpec p [] b) (p.length + 1))
        (p.length + 1 + 1) = _
    rw [hstep]
    have h2 := ih (p ++ [ca])
    simp only [List.length_append, List.length_singleton] at h2
    rw [h2, List.append_assoc]
    rfl

/-- The initial row `range(len(b)+1)` is the specified row of the empty
prefix. -/
theorem rowSpec_nil_left : ∀ (bs bp : List Char),
    rowSpec [] bp bs = List.range' bp.length (bs.length + 1) := by
  intro bs
  induction bs with
  | nil =>
    intro bp
    show [levRec [] bp] = List.range' bp.length 1
    rw [levRec_nil_left, List.range'_one]
  | cons cb bs' ih =>
    intro bp
    show levRec [] bp :: rowSpec [] (bp ++ [cb]) bs'
      = List.range' bp.length (bs'.length + 1 + 1)
    rw [levRec_nil_left, ih (bp ++ [cb])]
    simp [List.range'_succ]

/-- The last entry of a specified row is the distance to the full prefix. -/
theorem rowSpec_getLastD (p : List Char) : ∀ (bs bp : List Char) (d0 : Nat),
    (rowSpec p bp bs).getLastD d0 = levRec p (bp ++ bs) := by
  intro bs
  induction bs with
  | nil =>
    intro bp d0
    show ([levRec p bp]).getLastD d0 = levRec p (bp ++ [])
    simp
  | cons cb bs' ih =>
    intro bp d0
    show (levRec p bp :: rowSpec p (bp ++ [cb]) bs').getLastD d0
      = levRec p (bp ++ cb :: bs')
    rw [List.getLastD_cons, ih (bp ++ [cb]) (levRec p bp)]
    simp

/-- The row DP (after the swap) computes the textbook edit distance. -/
theorem levCore_eq (a b : List Char) : levCore a b = levRec a b := by
  unfold levCore
  by_cases hb : b.length = 0
  · rw [if_pos hb]
    rw [List.length_eq_zero.mp hb, levRec_nil_right]
  · rw [if_neg hb]
    have h0 : List.range (b.length + 1) = rowSpec [] [] b := by
      rw [rowSpec_nil_left b []]
      simp [List.range_eq_range']
    rw [h0]
    have h1 := levRows_rowSpec b a []
    simp only [List.length_nil, List.nil_append] at h1
    rw [h1, rowSpec_getLastD a b []]
    simp

/-- The Python `levenshtein` equals the textbook edit distance. -/
theorem levenshteinPy_eq (a b : List Char) : levenshteinPy a b = levRec a b := by
  unfold levenshteinPy
  by_cases h : a.length < b.length
  · rw [if_pos h, levCore_eq, levRec_symm]
  · rw [if_neg h, levCore_eq]

/-- C9: the edit-distance grader is symmetric, vanishes on the diagonal,
and is bounded by the longer operand's length. -/
theorem levenshtein_properties (a b : String) :
    levenshteinStr a b = levenshteinStr b a
    ∧ levenshteinStr a a = 0
    ∧ levenshteinStr a b ≤ max a.length b.length := by
  unfold levenshteinStr
  rw [levenshteinPy_eq, levenshteinPy_eq, levenshteinPy_eq]
  exact ⟨levRec_symm a.data b.data, levRec_self a.data,
    levRec_le_max a.data b.data⟩
